import Mathlib

/-!
Verification of the TMDLO loss core (`model.py`).

The evidence matrix of one sample is embedded as a function
`Fin views → Fin classes → ℝ` (row `v` is view `v`'s evidence vector).
Each tensor expression of the source is translated into a definition below,
in the order it appears in the code.
-/

open Finset

noncomputable section

/-- `F.one_hot(y, num_classes=classes)` for an in-range label `y`. -/
def one_hot {classes : ℕ} (y : Fin classes) : Fin classes → ℝ :=
  fun j => if j = y then 1 else 0

/-- `alpha_a = torch.sum(evidences, dim=0, keepdim=False) + 1`: the fused
Dirichlet parameters in `acc_loss`. -/
def alpha_a {views classes : ℕ} (evidences : Fin views → Fin classes → ℝ) :
    Fin classes → ℝ :=
  fun j => (∑ v, evidences v j) + 1

/-- `S = torch.sum(alpha_a)`: the fused Dirichlet strength in `acc_loss`. -/
def S_a {views classes : ℕ} (evidences : Fin views → Fin classes → ℝ) : ℝ :=
  ∑ j, alpha_a evidences j

/-- `P = alpha_a / S`: the fused prediction in `acc_loss`. -/
def fusedP {views classes : ℕ} (evidences : Fin views → Fin classes → ℝ) :
    Fin classes → ℝ :=
  fun j => alpha_a evidences j / S_a evidences

/-- `acc_loss(y, evidences, classes)` from `model.py`:
`L_acc = sum((label - P)**2 + P*(1-P)/(S+1))`. -/
def acc_loss {views classes : ℕ} (y : Fin classes)
    (evidences : Fin views → Fin classes → ℝ) : ℝ :=
  ∑ j, ((one_hot y j - fusedP evidences j) ^ 2
    + fusedP evidences j * (1 - fusedP evidences j) / (S_a evidences + 1))

/-- `alpha = evidences + 1` inside `con_loss`: per-view Dirichlet parameters. -/
def conAlpha {views classes : ℕ} (evidences : Fin views → Fin classes → ℝ) :
    Fin views → Fin classes → ℝ :=
  fun v j => evidences v j + 1

/-- `S = torch.sum(alpha, dim=1, keepdim=True)` inside `con_loss`: each view's
Dirichlet strength. -/
def conS {views classes : ℕ} (evidences : Fin views → Fin classes → ℝ) :
    Fin views → ℝ :=
  fun v => ∑ j, conAlpha evidences v j

/-- `B = evidences / S` inside `con_loss`: each view's belief masses. -/
def conB {views classes : ℕ} (evidences : Fin views → Fin classes → ℝ) :
    Fin views → Fin classes → ℝ :=
  fun v j => evidences v j / conS evidences v

/-- `U = classes / S` inside `con_loss`: each view's uncertainty mass. -/
def conU {views classes : ℕ} (evidences : Fin views → Fin classes → ℝ) :
    Fin views → ℝ :=
  fun v => (classes : ℝ) / conS evidences v

/-- `P = B + a * U` inside `con_loss` (`a` broadcasts over views, `U` over
classes): each view's projected probability. -/
def conP {views classes : ℕ} (evidences : Fin views → Fin classes → ℝ)
    (a : Fin classes → ℝ) : Fin views → Fin classes → ℝ :=
  fun v j => conB evidences v j + a j * conU evidences v

/-- `H = -torch.sum(P * log2(P), dim=1, keepdim=True)` inside `con_loss`:
each view's base-2 entropy of its projected probability. -/
def conH {views classes : ℕ} (evidences : Fin views → Fin classes → ℝ)
    (a : Fin classes → ℝ) : Fin views → ℝ :=
  fun v => -∑ j, conP evidences a v j * Real.logb 2 (conP evidences a v j)

/-- `H_mv = -torch.sum(P_mv * log2(P_mv))` with `P_mv = (P[m] + P[v]) / 2`:
entropy of the midpoint of two views' projected probabilities. -/
def H_mv {views classes : ℕ} (evidences : Fin views → Fin classes → ℝ)
    (a : Fin classes → ℝ) (m v : Fin views) : ℝ :=
  -∑ j, ((conP evidences a m j + conP evidences a v j) / 2)
    * Real.logb 2 ((conP evidences a m j + conP evidences a v j) / 2)

/-- `E_mv = H_mv - H[m]/2 - H[v]/2` inside `con_loss`. -/
def E_mv {views classes : ℕ} (evidences : Fin views → Fin classes → ℝ)
    (a : Fin classes → ℝ) (m v : Fin views) : ℝ :=
  H_mv evidences a m v - conH evidences a m / 2 - conH evidences a v / 2

/-- `con_loss(evidences, a, views, classes)` from `model.py`: the double loop
over ordered pairs `(m, v)` with `m != v`, with the inner sum divided by
`views - 1` before being accumulated into `L_con`. -/
def con_loss {views classes : ℕ} (evidences : Fin views → Fin classes → ℝ)
    (a : Fin classes → ℝ) : ℝ :=
  ∑ m, (∑ v, if m ≠ v then E_mv evidences a m v else 0) / ((views : ℝ) - 1)

/-- `a = torch.ones((1, classes)) / classes` in `TMDLO.forward`: the uniform
prior preference vector. -/
def uniform_a (classes : ℕ) : Fin classes → ℝ :=
  fun _ => 1 / (classes : ℝ)

/-- `loss = L_acc + lambda_con * L_con` in `TMDLO.forward`. -/
def total_loss {views classes : ℕ} (lambda_con : ℝ) (y : Fin classes)
    (evidences : Fin views → Fin classes → ℝ) (a : Fin classes → ℝ) : ℝ :=
  acc_loss y evidences + lambda_con * con_loss evidences a

/-- `nn.Linear`: a weight matrix (one row per output) and a bias vector. -/
structure Linear where
  weight : List (List ℝ)
  bias : List ℝ

/-- Applying a linear layer with the runtime's shape check: fails unless each
weight row matches the input length and the bias matches the output count. -/
def Linear.apply (l : Linear) (x : List ℝ) : Option (List ℝ) :=
  if (∀ row ∈ l.weight, row.length = x.length) ∧ l.bias.length = l.weight.length then
    some (List.zipWith (fun row b => (List.zipWith (fun w xi => w * xi) row x).sum + b)
      l.weight l.bias)
  else none

/-- `nn.Softplus()`: the final strictly positive activation. -/
def softplus (x : ℝ) : ℝ :=
  Real.log (1 + Real.exp x)

/-- `Classifier`: the per-view encoder, a sequence of linear layers followed by
the terminal `Softplus` module; `forward` applies them in order. -/
structure Classifier where
  layers : List Linear

/-- `Classifier.forward`: fold the input through every linear layer, then apply
softplus elementwise (the last entry of `self.fc`). -/
def Classifier.forward (c : Classifier) (x : List ℝ) : Option (List ℝ) := do
  let h ← c.layers.foldlM (fun h l => l.apply h) x
  pure (h.map softplus)

/-- `TMDLO.infer`: for each `v_num in range(self.views)` index `X[v_num]`
(an index error, hence `none`, when `X` is shorter) and run that view's
classifier; writing the row into the `(views, classes)` zero tensor fails
unless the row has length `classes`. Entries of `X` past `views - 1` are never
read. -/
def infer (views classes : ℕ) (classifiers : Fin views → Classifier)
    (X : List (List ℝ)) : Option (List (List ℝ)) :=
  (List.finRange views).mapM (fun v => do
    let x ← X[v.val]?
    let e ← (classifiers v).forward x
    if e.length = classes then some e else none)

/-- `F.one_hot(y, num_classes=classes)` on an untrusted integer label: the
runtime raises (here `none`) when the label is outside `[0, classes)`. -/
def one_hot_run (y : ℤ) (classes : ℕ) : Option (Fin classes → ℝ) :=
  if h : 0 ≤ y ∧ y.toNat < classes then some (one_hot ⟨y.toNat, h.2⟩) else none

/-- `acc_loss` as executed on an untrusted integer label: the one-hot lookup
inside it fails for an out-of-range label, so no loss value is produced. -/
def acc_loss_run {views classes : ℕ} (y : ℤ)
    (evidences : Fin views → Fin classes → ℝ) : Option ℝ :=
  (one_hot_run y classes).map (fun label =>
    ∑ j, ((label j - fusedP evidences j) ^ 2
      + fusedP evidences j * (1 - fusedP evidences j) / (S_a evidences + 1)))

lemma one_le_alpha_a {views classes : ℕ} {evidences : Fin views → Fin classes → ℝ}
    (hnn : ∀ v j, 0 ≤ evidences v j) (j : Fin classes) : 1 ≤ alpha_a evidences j := by
  have h : 0 ≤ ∑ v, evidences v j :=
    Finset.sum_nonneg fun v _ => hnn v j
  simp only [alpha_a]
  linarith

lemma classes_le_S_a {views classes : ℕ} {evidences : Fin views → Fin classes → ℝ}
    (hnn : ∀ v j, 0 ≤ evidences v j) : (classes : ℝ) ≤ S_a evidences := by
  have h : ∀ j : Fin classes, 1 ≤ alpha_a evidences j := one_le_alpha_a hnn
  calc (classes : ℝ) = ∑ _j : Fin classes, (1 : ℝ) := by simp
    _ ≤ ∑ j, alpha_a evidences j := Finset.sum_le_sum fun j _ => h j
    _ = S_a evidences := rfl

lemma S_a_pos {views classes : ℕ} {evidences : Fin views → Fin classes → ℝ}
    (hnn : ∀ v j, 0 ≤ evidences v j) (hc : 1 ≤ classes) : 0 < S_a evidences := by
  have h := classes_le_S_a hnn
  have h1 : (1 : ℝ) ≤ (classes : ℝ) := by exact_mod_cast hc
  linarith

/-- C3: for every evidence matrix with non-negative entries and `classes ≥ 1`,
the fused prediction `P = alpha_a / S` computed inside `acc_loss` sums to `1`
and has strictly positive entries. -/
theorem fusedP_sum_one_pos {views classes : ℕ}
    (evidences : Fin views → Fin classes → ℝ)
    (hnn : ∀ v j, 0 ≤ evidences v j) (hc : 1 ≤ classes) :
    (∑ j, fusedP evidences j) = 1 ∧ ∀ j, 0 < fusedP evidences j := by
  have hS : 0 < S_a evidences := S_a_pos hnn hc
  constructor
  · rw [show (∑ j, fusedP evidences j) = (∑ j, alpha_a evidences j) / S_a evidences by
      rw [Finset.sum_div]; rfl]
    rw [show (∑ j, alpha_a evidences j) = S_a evidences from rfl]
    exact div_self (ne_of_gt hS)
  · intro j
    have h1 : (0 : ℝ) < alpha_a evidences j := lt_of_lt_of_le one_pos (one_le_alpha_a hnn j)
    exact div_pos h1 hS

/-- Witness for C3 at `views = 2`, `classes = 2`, zero evidence. -/
theorem fusedP_sum_one_pos_witness :
    (∑ j, fusedP (fun _ _ => (0 : ℝ) : Fin 2 → Fin 2 → ℝ) j) = 1 ∧
      ∀ j, 0 < fusedP (fun _ _ => (0 : ℝ) : Fin 2 → Fin 2 → ℝ) j :=
  fusedP_sum_one_pos (fun _ _ => (0 : ℝ)) (fun _ _ => le_refl 0) (by norm_num)

/-- C5: if every entry of the evidence matrix is zero (with `views ≥ 1`,
`classes ≥ 1`), the fused prediction inside `acc_loss` is uniform,
`1 / classes` in every component. -/
theorem fusedP_uniform_of_zero_evidence {views classes : ℕ}
    (hv : 1 ≤ views) (hc : 1 ≤ classes)
    (evidences : Fin views → Fin classes → ℝ)
    (hzero : ∀ v j, evidences v j = 0) :
    ∀ j, fusedP evidences j = 1 / (classes : ℝ) := by
  intro j
  have halpha : ∀ k : Fin classes, alpha_a evidences k = 1 := by
    intro k
    simp [alpha_a, hzero]
  have hS : S_a evidences = (classes : ℝ) := by
    simp [S_a, halpha]
  simp [fusedP, halpha, hS]

/-- Witness for C5 at `views = 2`, `classes = 2`. -/
theorem fusedP_uniform_of_zero_evidence_witness :
    fusedP (fun _ _ => (0 : ℝ) : Fin 2 → Fin 2 → ℝ) 0 = 1 / ((2 : ℕ) : ℝ)
      ∧ fusedP (fun _ _ => (0 : ℝ) : Fin 2 → Fin 2 → ℝ) 1 = 1 / ((2 : ℕ) : ℝ) :=
  ⟨fusedP_uniform_of_zero_evidence (by norm_num) (by norm_num)
      (fun _ _ => (0 : ℝ)) (fun _ _ => rfl) 0,
    fusedP_uniform_of_zero_evidence (by norm_num) (by norm_num)
      (fun _ _ => (0 : ℝ)) (fun _ _ => rfl) 1⟩

/-- C6: at `views = 2`, `classes = 2`, zero evidence, label `0`, `acc_loss`
computes `alpha_a = [1, 1]`, `S = 2`, `P = [1/2, 1/2]` and returns `2/3`. -/
theorem acc_loss_concrete_two_thirds :
    (∀ j, alpha_a (fun _ _ => (0 : ℝ) : Fin 2 → Fin 2 → ℝ) j = 1) ∧
      S_a (fun _ _ => (0 : ℝ) : Fin 2 → Fin 2 → ℝ) = 2 ∧
      (∀ j, fusedP (fun _ _ => (0 : ℝ) : Fin 2 → Fin 2 → ℝ) j = 1 / 2) ∧
      acc_loss 0 (fun _ _ => (0 : ℝ) : Fin 2 → Fin 2 → ℝ) = 2 / 3 := by
  have halpha : ∀ j, alpha_a (fun _ _ => (0 : ℝ) : Fin 2 → Fin 2 → ℝ) j = 1 := by
    intro j; simp [alpha_a]
  have hS : S_a (fun _ _ => (0 : ℝ) : Fin 2 → Fin 2 → ℝ) = 2 := by
    simp [S_a, halpha, Fin.sum_univ_two]
  have hP : ∀ j, fusedP (fun _ _ => (0 : ℝ) : Fin 2 → Fin 2 → ℝ) j = 1 / 2 := by
    intro j; simp [fusedP, halpha, hS]
  refine ⟨halpha, hS, hP, ?_⟩
  simp [acc_loss, hP, hS, Fin.sum_univ_two, one_hot]
  norm_num

/-- C10: `acc_loss` depends on the evidence matrix only through its per-class
column sums; in particular two matrices with different numbers of views but
equal column sums give the same value. -/
theorem acc_loss_depends_only_on_column_sums {views₁ views₂ classes : ℕ}
    (y : Fin classes)
    (ev₁ : Fin views₁ → Fin classes → ℝ) (ev₂ : Fin views₂ → Fin classes → ℝ)
    (hcol : ∀ j, (∑ v, ev₁ v j) = ∑ v, ev₂ v j) :
    acc_loss y ev₁ = acc_loss y ev₂ := by
  have halpha : alpha_a ev₁ = alpha_a ev₂ := by
    funext j; simp [alpha_a, hcol j]
  have hS : S_a ev₁ = S_a ev₂ := by simp [S_a, halpha]
  have hP : fusedP ev₁ = fusedP ev₂ := by funext j; simp [fusedP, halpha, hS]
  simp [acc_loss, hP, hS]

/-- Witness for C10: a 2-view matrix and a 1-view matrix with the same column
sums give the same `acc_loss`. -/
theorem acc_loss_depends_only_on_column_sums_witness :
    acc_loss (0 : Fin 2) (![![(1 : ℝ), 0], ![0, 1]]) =
      acc_loss (0 : Fin 2) (![![(1 : ℝ), 1]]) := by
  refine acc_loss_depends_only_on_column_sums 0 _ _ ?_
  intro j
  fin_cases j <;> simp [Fin.sum_univ_two]

/-- C1: for non-negative evidence, an in-range label and `classes ≥ 2`,
`acc_loss` returns the sum over classes of
`(one_hot(y) - P)^2 + P * (1 - P) / (S + 1)` with
`alpha_a = columnwise evidence sum + 1`, `S = sum(alpha_a)`, `P = alpha_a / S`. -/
theorem acc_loss_formula {views classes : ℕ} (hc : 2 ≤ classes) (y : Fin classes)
    (evidences : Fin views → Fin classes → ℝ)
    (hnn : ∀ v j, 0 ≤ evidences v j) :
    acc_loss y evidences =
      ∑ j, (((if j = y then (1 : ℝ) else 0)
          - ((∑ v, evidences v j) + 1) / (∑ k, ((∑ v, evidences v k) + 1))) ^ 2
        + (((∑ v, evidences v j) + 1) / (∑ k, ((∑ v, evidences v k) + 1)))
          * (1 - ((∑ v, evidences v j) + 1) / (∑ k, ((∑ v, evidences v k) + 1)))
          / ((∑ k, ((∑ v, evidences v k) + 1)) + 1)) :=
  rfl

/-- Witness for C1 at `views = 2`, `classes = 2`, zero evidence, label `0`. -/
theorem acc_loss_formula_witness :
    acc_loss (0 : Fin 2) (fun _ _ => (0 : ℝ) : Fin 2 → Fin 2 → ℝ) =
      ∑ j : Fin 2, (((if j = 0 then (1 : ℝ) else 0)
          - ((∑ v : Fin 2, (0 : ℝ)) + 1) / (∑ _k : Fin 2, ((∑ v : Fin 2, (0 : ℝ)) + 1))) ^ 2
        + (((∑ v : Fin 2, (0 : ℝ)) + 1) / (∑ _k : Fin 2, ((∑ v : Fin 2, (0 : ℝ)) + 1)))
          * (1 - ((∑ v : Fin 2, (0 : ℝ)) + 1) / (∑ _k : Fin 2, ((∑ v : Fin 2, (0 : ℝ)) + 1)))
          / ((∑ _k : Fin 2, ((∑ v : Fin 2, (0 : ℝ)) + 1)) + 1)) :=
  acc_loss_formula (by norm_num) 0 (fun _ _ => (0 : ℝ)) (fun _ _ => le_refl 0)

lemma H_mv_symm {views classes : ℕ} (evidences : Fin views → Fin classes → ℝ)
    (a : Fin classes → ℝ) (m v : Fin views) :
    H_mv evidences a m v = H_mv evidences a v m := by
  simp only [H_mv]
  congr 1
  refine Finset.sum_congr rfl fun j _ => ?_
  rw [add_comm (conP evidences a m j)]

lemma E_mv_symm {views classes : ℕ} (evidences : Fin views → Fin classes → ℝ)
    (a : Fin classes → ℝ) (m v : Fin views) :
    E_mv evidences a m v = E_mv evidences a v m := by
  simp only [E_mv, H_mv_symm evidences a m v]
  ring

/-- C2: `con_loss` visits every ordered pair `(m, v)` with `m ≠ v`, divides each
outer-index-`m` sum by `views - 1` and sums these per-view averages; each
unordered pair's divergence is counted twice relative to a single-count
convention, with no further global normalization. -/
theorem con_loss_ordered_pairs {views classes : ℕ} (hv : 2 ≤ views)
    (evidences : Fin views → Fin classes → ℝ) (a : Fin classes → ℝ) :
    con_loss evidences a
        = ∑ m, (∑ v ∈ Finset.univ.erase m, E_mv evidences a m v) / ((views : ℝ) - 1)
      ∧ con_loss evidences a
        = (2 * ∑ m, ∑ v ∈ Finset.univ.filter (fun v => m < v), E_mv evidences a m v)
            / ((views : ℝ) - 1) := by
  have hsplit : ∀ m v : Fin views,
      (if m ≠ v then E_mv evidences a m v else 0)
        = (if m < v then E_mv evidences a m v else 0)
          + (if v < m then E_mv evidences a m v else 0) := by
    intro m v
    rcases lt_trichotomy m v with h | h | h
    · simp [h, h.ne, lt_asymm h]
    · simp [h]
    · simp [h, h.ne', lt_asymm h]
  have hAB : (∑ m : Fin views, ∑ v : Fin views, if v < m then E_mv evidences a m v else 0)
      = ∑ m : Fin views, ∑ v : Fin views, if m < v then E_mv evidences a m v else 0 := by
    rw [Finset.sum_comm]
    refine Finset.sum_congr rfl fun x _ => Finset.sum_congr rfl fun y _ => ?_
    by_cases h : x < y
    · simp [h, E_mv_symm evidences a y x]
    · simp [h]
  constructor
  · refine Finset.sum_congr rfl fun m _ => ?_
    rw [← Finset.sum_filter, Finset.filter_ne]
  · have hc2 : con_loss evidences a
        = (∑ m : Fin views, ((∑ v : Fin views, if m < v then E_mv evidences a m v else 0)
            + ∑ v : Fin views, if v < m then E_mv evidences a m v else 0))
          / ((views : ℝ) - 1) := by
      simp only [con_loss]
      rw [← Finset.sum_div]
      congr 1
      refine Finset.sum_congr rfl fun m _ => ?_
      rw [← Finset.sum_add_distrib]
      exact Finset.sum_congr rfl fun v _ => hsplit m v
    rw [hc2]
    congr 1
    rw [Finset.sum_add_distrib, hAB, two_mul]
    congr 1 <;>
      exact Finset.sum_congr rfl fun m _ => (Finset.sum_filter _ _).symm

/-- Witness for C2 at `views = 2`, `classes = 1`, zero evidence, `a = 1`. -/
theorem con_loss_ordered_pairs_witness :
    con_loss (fun _ _ => (0 : ℝ) : Fin 2 → Fin 1 → ℝ) (fun _ => 1)
        = ∑ m, (∑ v ∈ Finset.univ.erase m,
            E_mv (fun _ _ => (0 : ℝ) : Fin 2 → Fin 1 → ℝ) (fun _ => 1) m v) / ((2 : ℝ) - 1)
      ∧ con_loss (fun _ _ => (0 : ℝ) : Fin 2 → Fin 1 → ℝ) (fun _ => 1)
        = (2 * ∑ m, ∑ v ∈ Finset.univ.filter (fun v => m < v),
            E_mv (fun _ _ => (0 : ℝ) : Fin 2 → Fin 1 → ℝ) (fun _ => 1) m v) / ((2 : ℝ) - 1) := by
  have h := con_loss_ordered_pairs (by norm_num)
    (fun _ _ => (0 : ℝ) : Fin 2 → Fin 1 → ℝ) (fun _ => 1)
  exact_mod_cast h

lemma conS_pos {views classes : ℕ} {evidences : Fin views → Fin classes → ℝ}
    (hnn : ∀ v j, 0 ≤ evidences v j) (hc : 1 ≤ classes) (v : Fin views) :
    0 < conS evidences v := by
  have hone : ∀ j : Fin classes, (1 : ℝ) ≤ conAlpha evidences v j := by
    intro j
    have := hnn v j
    simp only [conAlpha]
    linarith
  have hc0 : (0 : ℝ) < (classes : ℝ) := by
    exact_mod_cast Nat.lt_of_lt_of_le (by norm_num) hc
  calc (0 : ℝ) < (classes : ℝ) := hc0
    _ = ∑ _j : Fin classes, (1 : ℝ) := by simp
    _ ≤ ∑ j, conAlpha evidences v j := Finset.sum_le_sum fun j _ => hone j
    _ = conS evidences v := rfl

lemma conP_uniform_nonneg {views classes : ℕ}
    {evidences : Fin views → Fin classes → ℝ}
    (hnn : ∀ v j, 0 ≤ evidences v j) (hc : 1 ≤ classes) (v : Fin views)
    (j : Fin classes) : 0 ≤ conP evidences (uniform_a classes) v j := by
  have hS := conS_pos hnn hc v
  have h1 : 0 ≤ conB evidences v j := div_nonneg (hnn v j) (le_of_lt hS)
  have h2 : 0 ≤ conU evidences v := by
    refine div_nonneg ?_ (le_of_lt hS)
    exact_mod_cast Nat.zero_le classes
  have h3 : 0 ≤ uniform_a classes j := by
    simp only [uniform_a]
    positivity
  exact add_nonneg h1 (mul_nonneg h3 h2)

lemma jensen_mid_le {p q : ℝ} (hp : 0 ≤ p) (hq : 0 ≤ q) :
    Real.negMulLog p / 2 + Real.negMulLog q / 2 ≤ Real.negMulLog ((p + q) / 2) := by
  have h := Real.concaveOn_negMulLog.2 (Set.mem_Ici.2 hp) (Set.mem_Ici.2 hq)
    (by norm_num : (0 : ℝ) ≤ 1 / 2) (by norm_num : (0 : ℝ) ≤ 1 / 2)
    (by norm_num : (1 : ℝ) / 2 + 1 / 2 = 1)
  simp only [smul_eq_mul] at h
  have harg : (1 : ℝ) / 2 * p + 1 / 2 * q = (p + q) / 2 := by ring
  rw [harg] at h
  linarith

lemma jensen_mid_lt {p q : ℝ} (hp : 0 ≤ p) (hq : 0 ≤ q) (hne : p ≠ q) :
    Real.negMulLog p / 2 + Real.negMulLog q / 2 < Real.negMulLog ((p + q) / 2) := by
  have h := Real.strictConcaveOn_negMulLog.2 (Set.mem_Ici.2 hp) (Set.mem_Ici.2 hq)
    hne (by norm_num : (0 : ℝ) < 1 / 2) (by norm_num : (0 : ℝ) < 1 / 2)
    (by norm_num : (1 : ℝ) / 2 + 1 / 2 = 1)
  simp only [smul_eq_mul] at h
  have harg : (1 : ℝ) / 2 * p + 1 / 2 * q = (p + q) / 2 := by ring
  rw [harg] at h
  linarith

lemma neg_sum_logb {n : ℕ} (p : Fin n → ℝ) :
    -∑ j, p j * Real.logb 2 (p j) = (∑ j, Real.negMulLog (p j)) / Real.log 2 := by
  rw [Finset.sum_div, ← Finset.sum_neg_distrib]
  refine Finset.sum_congr rfl fun j _ => ?_
  simp only [Real.negMulLog, Real.logb]
  ring

lemma conH_eq_negMulLog {views classes : ℕ}
    (evidences : Fin views → Fin classes → ℝ) (a : Fin classes → ℝ) (v : Fin views) :
    conH evidences a v = (∑ j, Real.negMulLog (conP evidences a v j)) / Real.log 2 :=
  neg_sum_logb _

lemma H_mv_eq_negMulLog {views classes : ℕ}
    (evidences : Fin views → Fin classes → ℝ) (a : Fin classes → ℝ) (m v : Fin views) :
    H_mv evidences a m v
      = (∑ j, Real.negMulLog ((conP evidences a m j + conP evidences a v j) / 2))
        / Real.log 2 :=
  neg_sum_logb _

lemma E_mv_eq_negMulLog {views classes : ℕ}
    (evidences : Fin views → Fin classes → ℝ) (a : Fin classes → ℝ) (m v : Fin views) :
    E_mv evidences a m v
      = (∑ j, (Real.negMulLog ((conP evidences a m j + conP evidences a v j) / 2)
          - Real.negMulLog (conP evidences a m j) / 2
          - Real.negMulLog (conP evidences a v j) / 2)) / Real.log 2 := by
  simp only [E_mv]
  rw [H_mv_eq_negMulLog, conH_eq_negMulLog, conH_eq_negMulLog,
    Finset.sum_sub_distrib, Finset.sum_sub_distrib, ← Finset.sum_div, ← Finset.sum_div]
  ring

/-- C4: with non-negative evidence and the uniform prior `a = 1/classes`, the
excess entropy `E_mv` of every pair of distinct views is non-negative and
vanishes exactly when the two views' projected probabilities coincide; in
particular `con_loss` is `0` when all views' evidence vectors are identical. -/
theorem E_mv_nonneg_zero_iff {views classes : ℕ} (hv : 2 ≤ views) (hc : 1 ≤ classes)
    (evidences : Fin views → Fin classes → ℝ) (hnn : ∀ v j, 0 ≤ evidences v j)
    (a : Fin classes → ℝ) (ha : a = uniform_a classes) :
    (∀ m v : Fin views, m ≠ v →
        0 ≤ E_mv evidences a m v
          ∧ (E_mv evidences a m v = 0 ↔ conP evidences a m = conP evidences a v))
      ∧ ((∀ v w : Fin views, evidences v = evidences w) → con_loss evidences a = 0) := by
  have hPnn : ∀ v j, 0 ≤ conP evidences a v j := by
    subst ha
    exact fun v j => conP_uniform_nonneg hnn hc v j
  have hlog : (0 : ℝ) < Real.log 2 := Real.log_pos (by norm_num)
  have hD : ∀ m v : Fin views, ∀ j, 0 ≤
      Real.negMulLog ((conP evidences a m j + conP evidences a v j) / 2)
        - Real.negMulLog (conP evidences a m j) / 2
        - Real.negMulLog (conP evidences a v j) / 2 := by
    intro m v j
    have := jensen_mid_le (hPnn m j) (hPnn v j)
    linarith
  have hpair : ∀ m v : Fin views, m ≠ v →
      0 ≤ E_mv evidences a m v
        ∧ (E_mv evidences a m v = 0 ↔ conP evidences a m = conP evidences a v) := by
    intro m v _
    constructor
    · rw [E_mv_eq_negMulLog]
      exact div_nonneg (Finset.sum_nonneg fun j _ => hD m v j) (le_of_lt hlog)
    · constructor
      · intro h0
        rw [E_mv_eq_negMulLog] at h0
        have hsum0 : (∑ j, (Real.negMulLog ((conP evidences a m j + conP evidences a v j) / 2)
            - Real.negMulLog (conP evidences a m j) / 2
            - Real.negMulLog (conP evidences a v j) / 2)) = 0 := by
          rcases div_eq_zero_iff.1 h0 with h | h
          · exact h
          · exact absurd h (ne_of_gt hlog)
        have hall := (Finset.sum_eq_zero_iff_of_nonneg fun j _ => hD m v j).1 hsum0
        funext j
        by_contra hne
        have hlt := jensen_mid_lt (hPnn m j) (hPnn v j) hne
        have := hall j (Finset.mem_univ j)
        linarith
      · intro heq
        rw [E_mv_eq_negMulLog]
        have hz : ∀ j : Fin classes,
            Real.negMulLog ((conP evidences a m j + conP evidences a v j) / 2)
              - Real.negMulLog (conP evidences a m j) / 2
              - Real.negMulLog (conP evidences a v j) / 2 = 0 := by
          intro j
          rw [heq]
          have hmid : (conP evidences a v j + conP evidences a v j) / 2
              = conP evidences a v j := by ring
          rw [hmid]
          ring
        rw [Finset.sum_eq_zero fun j _ => hz j, zero_div]
  refine ⟨hpair, ?_⟩
  intro hsame
  have hPsame : ∀ m v : Fin views, conP evidences a m = conP evidences a v := by
    intro m v
    funext j
    simp only [conP, conB, conU, conS, conAlpha]
    rw [hsame m v]
  simp only [con_loss]
  rw [Finset.sum_eq_zero]
  intro m _
  rw [Finset.sum_eq_zero, zero_div]
  intro v _
  by_cases h : m = v
  · simp [h]
  · rw [if_pos h, (hpair m v h).2.2 (hPsame m v)]

/-- Witness for C4 at `views = 2`, `classes = 2`, zero evidence, uniform prior. -/
theorem E_mv_nonneg_zero_iff_witness :
    (∀ m v : Fin 2, m ≠ v →
        0 ≤ E_mv (fun _ _ => (0 : ℝ) : Fin 2 → Fin 2 → ℝ) (uniform_a 2) m v
          ∧ (E_mv (fun _ _ => (0 : ℝ) : Fin 2 → Fin 2 → ℝ) (uniform_a 2) m v = 0
            ↔ conP (fun _ _ => (0 : ℝ) : Fin 2 → Fin 2 → ℝ) (uniform_a 2) m
              = conP (fun _ _ => (0 : ℝ) : Fin 2 → Fin 2 → ℝ) (uniform_a 2) v))
      ∧ ((∀ v w : Fin 2, (fun _ _ => (0 : ℝ) : Fin 2 → Fin 2 → ℝ) v
            = (fun _ _ => (0 : ℝ) : Fin 2 → Fin 2 → ℝ) w)
          → con_loss (fun _ _ => (0 : ℝ) : Fin 2 → Fin 2 → ℝ) (uniform_a 2) = 0) :=
  E_mv_nonneg_zero_iff (by norm_num) (by norm_num)
    (fun _ _ => (0 : ℝ)) (fun _ _ => le_refl 0) (uniform_a 2) rfl

/-- Closed form of `acc_loss`: with `M` and `Q` the sum and the sum of squares
of the fused Dirichlet parameters over the classes other than `y`,
`L_acc = (M ^ 2 + Q + 2 * M) / (S * (S + 1))`. -/
lemma acc_loss_closed_form {views classes : ℕ} (y : Fin classes)
    (evidences : Fin views → Fin classes → ℝ)
    (hS : S_a evidences ≠ 0) (hS1 : S_a evidences + 1 ≠ 0) :
    acc_loss y evidences =
      ((∑ j ∈ Finset.univ.erase y, alpha_a evidences j) ^ 2
        + (∑ j ∈ Finset.univ.erase y, (alpha_a evidences j) ^ 2)
        + 2 * ∑ j ∈ Finset.univ.erase y, alpha_a evidences j)
      / (S_a evidences * (S_a evidences + 1)) := by
  set α := alpha_a evidences with hα
  set S := S_a evidences with hSdef
  set M := ∑ j ∈ Finset.univ.erase y, α j with hM
  set Q := ∑ j ∈ Finset.univ.erase y, (α j) ^ 2 with hQ
  have hsum : α y + M = S :=
    Finset.add_sum_erase Finset.univ α (Finset.mem_univ y)
  have hay : α y = S - M := by linarith
  have hF : acc_loss y evidences
      = ((one_hot y y - α y / S) ^ 2 + α y / S * (1 - α y / S) / (S + 1))
        + ∑ j ∈ Finset.univ.erase y,
            ((one_hot y j - α j / S) ^ 2 + α j / S * (1 - α j / S) / (S + 1)) :=
    (Finset.add_sum_erase Finset.univ _ (Finset.mem_univ y)).symm
  have herase : ∑ j ∈ Finset.univ.erase y,
      ((one_hot y j - α j / S) ^ 2 + α j / S * (1 - α j / S) / (S + 1))
      = Q * (1 / S ^ 2 - 1 / (S ^ 2 * (S + 1))) + M * (1 / (S * (S + 1))) := by
    have hpt : ∀ j ∈ Finset.univ.erase y,
        ((one_hot y j - α j / S) ^ 2 + α j / S * (1 - α j / S) / (S + 1))
          = (α j) ^ 2 * (1 / S ^ 2 - 1 / (S ^ 2 * (S + 1))) + α j * (1 / (S * (S + 1))) := by
      intro j hj
      have hjy : j ≠ y := Finset.ne_of_mem_erase hj
      simp only [one_hot, hjy, if_neg hjy]
      field_simp
      ring
    rw [Finset.sum_congr rfl hpt, Finset.sum_add_distrib, ← Finset.sum_mul, ← Finset.sum_mul]
  have hyy : one_hot y y = 1 := by simp [one_hot]
  rw [hF, herase, hyy, hay]
  field_simp
  ring

/-- C7: with the label's class evidence free and all other classes' evidence
held fixed, `acc_loss` is strictly decreasing in the total evidence on the true
class, and it is strictly positive (it reaches `0` only in the limit). -/
theorem acc_loss_true_class_antitone {views classes : ℕ} (hc : 2 ≤ classes)
    (y : Fin classes)
    (ev ev' : Fin views → Fin classes → ℝ)
    (hnn : ∀ v j, 0 ≤ ev v j) (hnn' : ∀ v j, 0 ≤ ev' v j)
    (hother : ∀ v j, j ≠ y → ev v j = ev' v j)
    (htrue : (∑ v, ev v y) < ∑ v, ev' v y) :
    acc_loss y ev' < acc_loss y ev ∧ 0 < acc_loss y ev' := by
  have hc1 : 1 ≤ classes := le_trans (by norm_num) hc
  have hS : 0 < S_a ev := S_a_pos hnn hc1
  have hS' : 0 < S_a ev' := S_a_pos hnn' hc1
  have halpha : ∀ j, j ≠ y → alpha_a ev j = alpha_a ev' j := by
    intro j hj
    simp only [alpha_a]
    rw [Finset.sum_congr rfl fun v _ => hother v j hj]
  have hM : (∑ j ∈ Finset.univ.erase y, alpha_a ev j)
      = ∑ j ∈ Finset.univ.erase y, alpha_a ev' j :=
    Finset.sum_congr rfl fun j hj => halpha j (Finset.ne_of_mem_erase hj)
  have hQ : (∑ j ∈ Finset.univ.erase y, (alpha_a ev j) ^ 2)
      = ∑ j ∈ Finset.univ.erase y, (alpha_a ev' j) ^ 2 :=
    Finset.sum_congr rfl fun j hj => by rw [halpha j (Finset.ne_of_mem_erase hj)]
  have hScomp : S_a ev < S_a ev' := by
    have h1 : alpha_a ev y + (∑ j ∈ Finset.univ.erase y, alpha_a ev j) = S_a ev :=
      Finset.add_sum_erase Finset.univ _ (Finset.mem_univ y)
    have h2 : alpha_a ev' y + (∑ j ∈ Finset.univ.erase y, alpha_a ev' j) = S_a ev' :=
      Finset.add_sum_erase Finset.univ _ (Finset.mem_univ y)
    have hay : alpha_a ev y < alpha_a ev' y := by
      simp only [alpha_a]
      linarith
    linarith [hM]
  have hMpos : 0 < ∑ j ∈ Finset.univ.erase y, alpha_a ev j := by
    have hcard : (Finset.univ.erase y).card = classes - 1 := by
      rw [Finset.card_erase_of_mem (Finset.mem_univ y)]
      simp
    have hne : (Finset.univ.erase y).Nonempty := by
      rw [← Finset.card_pos, hcard]
      omega
    obtain ⟨j0, hj0⟩ := hne
    have h1 : ∀ j ∈ Finset.univ.erase y, 0 ≤ alpha_a ev j := fun j _ =>
      le_trans zero_le_one (one_le_alpha_a hnn j)
    have h2 : 1 ≤ alpha_a ev j0 := one_le_alpha_a hnn j0
    calc (0 : ℝ) < 1 := one_pos
      _ ≤ alpha_a ev j0 := h2
      _ ≤ ∑ j ∈ Finset.univ.erase y, alpha_a ev j :=
          Finset.single_le_sum h1 hj0
  have hQnn : 0 ≤ ∑ j ∈ Finset.univ.erase y, (alpha_a ev j) ^ 2 :=
    Finset.sum_nonneg fun j _ => sq_nonneg _
  set N := (∑ j ∈ Finset.univ.erase y, alpha_a ev j) ^ 2
    + (∑ j ∈ Finset.univ.erase y, (alpha_a ev j) ^ 2)
    + 2 * ∑ j ∈ Finset.univ.erase y, alpha_a ev j with hN
  have hNpos : 0 < N := by
    have := sq_nonneg (∑ j ∈ Finset.univ.erase y, alpha_a ev j)
    nlinarith
  have hform : acc_loss y ev = N / (S_a ev * (S_a ev + 1)) :=
    acc_loss_closed_form y ev (ne_of_gt hS) (by linarith)
  have hform' : acc_loss y ev' = N / (S_a ev' * (S_a ev' + 1)) := by
    rw [acc_loss_closed_form y ev' (ne_of_gt hS') (by linarith), hN, hM, hQ]
  have hden : 0 < S_a ev * (S_a ev + 1) := by nlinarith
  have hden' : 0 < S_a ev' * (S_a ev' + 1) := by nlinarith
  have hdlt : S_a ev * (S_a ev + 1) < S_a ev' * (S_a ev' + 1) := by nlinarith
  constructor
  · rw [hform, hform']
    exact div_lt_div_of_pos_left hNpos hden hdlt
  · rw [hform']
    exact div_pos hNpos hden'

/-- Witness for C7 at `views = 1`, `classes = 2`: moving the true class's
evidence from `0` to `1` strictly lowers the (positive) loss. -/
theorem acc_loss_true_class_antitone_witness :
    acc_loss (0 : Fin 2) (![![(1 : ℝ), 0]]) < acc_loss (0 : Fin 2) (![![(0 : ℝ), 0]])
      ∧ 0 < acc_loss (0 : Fin 2) (![![(1 : ℝ), 0]]) :=
  acc_loss_true_class_antitone (by norm_num) 0 (![![(0 : ℝ), 0]]) (![![(1 : ℝ), 0]])
    (fun v j => by fin_cases v <;> fin_cases j <;> norm_num)
    (fun v j => by fin_cases v <;> fin_cases j <;> norm_num)
    (fun v j hj => by fin_cases v <;> fin_cases j <;> simp_all)
    (by simp)

/-- C8: permuting the views axis of the evidence matrix leaves `acc_loss`,
`con_loss`, and the total loss `L_acc + lambda_con * L_con` unchanged. -/
theorem total_loss_perm_invariant {views classes : ℕ} (lambda_con : ℝ)
    (y : Fin classes) (evidences : Fin views → Fin classes → ℝ)
    (a : Fin classes → ℝ) (σ : Equiv.Perm (Fin views)) :
    acc_loss y (fun v => evidences (σ v)) = acc_loss y evidences
      ∧ con_loss (fun v => evidences (σ v)) a = con_loss evidences a
      ∧ total_loss lambda_con y (fun v => evidences (σ v)) a
          = total_loss lambda_con y evidences a := by
  have halpha : alpha_a (fun v => evidences (σ v)) = alpha_a evidences := by
    funext j
    simp only [alpha_a]
    rw [Equiv.sum_comp σ (fun v => evidences v j)]
  have hacc : acc_loss y (fun v => evidences (σ v)) = acc_loss y evidences := by
    simp [acc_loss, fusedP, S_a, halpha]
  have hE : ∀ m v : Fin views, E_mv (fun w => evidences (σ w)) a m v
      = E_mv evidences a (σ m) (σ v) := fun m v => rfl
  have hcon : con_loss (fun v => evidences (σ v)) a = con_loss evidences a := by
    simp only [con_loss]
    calc ∑ m, (∑ v, if m ≠ v then E_mv (fun w => evidences (σ w)) a m v else 0)
          / ((views : ℝ) - 1)
        = ∑ m, (∑ v, if σ m ≠ σ v then E_mv evidences a (σ m) (σ v) else 0)
          / ((views : ℝ) - 1) := by
          refine Finset.sum_congr rfl fun m _ => ?_
          congr 1
          refine Finset.sum_congr rfl fun v _ => ?_
          rw [hE]
          simp only [Ne, EmbeddingLike.apply_eq_iff_eq]
      _ = ∑ m, (∑ v, if σ m ≠ v then E_mv evidences a (σ m) v else 0)
          / ((views : ℝ) - 1) := by
          refine Finset.sum_congr rfl fun m _ => ?_
          congr 1
          exact Equiv.sum_comp σ (fun v => if σ m ≠ v then E_mv evidences a (σ m) v else 0)
      _ = ∑ m, (∑ v, if m ≠ v then E_mv evidences a m v else 0) / ((views : ℝ) - 1) :=
          Equiv.sum_comp σ
            (fun m => (∑ v, if m ≠ v then E_mv evidences a m v else 0) / ((views : ℝ) - 1))
  exact ⟨hacc, hcon, by simp [total_loss, hacc, hcon]⟩

lemma mapM_option_eq_none {α β : Type} (f : α → Option β) :
    ∀ (l : List α) (a : α), a ∈ l → f a = none → l.mapM f = none := by
  intro l
  induction l with
  | nil =>
    intro a ha _
    simp at ha
  | cons b t ih =>
    intro a ha hfa
    rw [List.mapM_cons]
    rcases List.mem_cons.1 ha with h | h
    · subst h
      rw [hfa]
      rfl
    · cases hfb : f b with
      | none => rfl
      | some val =>
        simp only [hfb, ih a h hfa]
        rfl

lemma mapM_option_congr {α β : Type} (f g : α → Option β) :
    ∀ l : List α, (∀ a ∈ l, f a = g a) → l.mapM f = l.mapM g := by
  intro l
  induction l with
  | nil => intro _; rfl
  | cons b t ih =>
    intro h
    rw [List.mapM_cons, List.mapM_cons, h b (List.mem_cons_self b t),
      ih fun a ha => h a (List.mem_cons_of_mem b ha)]

/-- A concrete single-layer two-class classifier used in the C9 instances. -/
def cexClassifier : Classifier :=
  ⟨[⟨[[1, 0], [0, 1]], [0, 0]⟩]⟩

/-- Counterexample to C9 as stated: an input with three feature vectors on a
model configured with `views = 2` is not rejected — `infer` succeeds, silently
ignoring the extra entry. -/
theorem infer_extra_views_cex :
    ([[(1 : ℝ), 2], [3, 4], [5, 6]] : List (List ℝ)).length ≠ 2
      ∧ (infer 2 2 (fun _ => cexClassifier)
          [[(1 : ℝ), 2], [3, 4], [5, 6]]).isSome = true := by
  constructor
  · simp
  · rfl

/-- C9 (amended): supplying fewer than `views` feature vectors fails fast at
the indexing boundary; supplying more than `views` succeeds with the extra
entries silently ignored; an out-of-range label makes the one-hot lookup
inside `acc_loss` fail, so no loss is produced. -/
theorem infer_view_count_amended :
    (∀ (views classes : ℕ) (classifiers : Fin views → Classifier)
        (X : List (List ℝ)), X.length < views →
        infer views classes classifiers X = none)
      ∧ (∀ (views classes : ℕ) (classifiers : Fin views → Classifier)
          (X Y : List (List ℝ)), X.length = views →
          infer views classes classifiers (X ++ Y) = infer views classes classifiers X)
      ∧ (∀ (views classes : ℕ) (y : ℤ) (evidences : Fin views → Fin classes → ℝ),
          (y < 0 ∨ (classes : ℤ) ≤ y) → acc_loss_run y evidences = none) := by
  refine ⟨?_, ?_, ?_⟩
  · intro views classes classifiers X hlen
    have hmem : (⟨X.length, hlen⟩ : Fin views) ∈ List.finRange views :=
      List.mem_finRange _
    refine mapM_option_eq_none _ _ _ hmem ?_
    have hx : (X[(⟨X.length, hlen⟩ : Fin views).val]? : Option (List ℝ)) = none :=
      List.getElem?_eq_none (le_refl _)
    rw [hx]
    rfl
  · intro views classes classifiers X Y hlen
    refine mapM_option_congr _ _ _ fun v _ => ?_
    have hv : v.val < X.length := by
      rw [hlen]
      exact v.isLt
    have hx : ((X ++ Y)[v.val]? : Option (List ℝ)) = X[v.val]? := by
      rw [List.getElem?_append, if_pos hv]
    rw [hx]
  · intro views classes y evidences hy
    have hcond : ¬(0 ≤ y ∧ y.toNat < classes) := by
      rintro ⟨h1, h2⟩
      rcases hy with h | h <;> omega
    simp only [acc_loss_run, one_hot_run, dif_neg hcond]
    rfl

/-- Witness for the amended C9 at concrete inputs. -/
theorem infer_view_count_amended_witness :
    infer 2 2 (fun _ => cexClassifier) [[(1 : ℝ), 2]] = none
      ∧ infer 2 2 (fun _ => cexClassifier) ([[(1 : ℝ), 2], [3, 4]] ++ [[5, 6]])
          = infer 2 2 (fun _ => cexClassifier) [[(1 : ℝ), 2], [3, 4]]
      ∧ acc_loss_run (-1) (fun _ _ => (0 : ℝ) : Fin 2 → Fin 2 → ℝ) = none :=
  ⟨infer_view_count_amended.1 2 2 (fun _ => cexClassifier) [[(1 : ℝ), 2]] (by norm_num),
    infer_view_count_amended.2.1 2 2 (fun _ => cexClassifier)
      [[(1 : ℝ), 2], [3, 4]] [[5, 6]] (by norm_num),
    infer_view_count_amended.2.2 2 2 (-1) (fun _ _ => (0 : ℝ)) (Or.inl (by norm_num))⟩

end
